import Mathlib

/-!
# A verification of the sliding-block puzzle solver

A shallow embedding of the solver (src/board.rs and src/main.rs): the
`Piece`/`Move`/`Board` data model with move generation, move application and
reversal, and the breadth-first search engine `solve`, together with theorems
settling the specification's claims about them.

Machine integers (`u32` in the source) are modelled as `Nat`; the places where
the source subtracts are either guarded in the source itself (the `start < i`
probe guards) or covered by explicit side conditions in the theorems, so Nat
truncated subtraction agrees with the source's arithmetic everywhere a theorem
speaks about it.  The source's two unbounded probing loops (`for i in 1..`)
break at the latest when the probed coordinate leaves the grid, so they are
embedded as a fuel-bounded loop `probe` whose fuel (grid width or height plus
one) is proved never to run out.  The search loop in `solve` can genuinely
diverge, so it is embedded with an explicit fuel parameter: divergence is the
statement that every fuel yields `none`.
-/

/-- Tiles are coordinate pairs (`pub type Tile = (u32, u32)`). -/
abbrev Tile := Nat × Nat

/-- The axis of a piece (`enum Direction`). -/
inductive Direction where
  | Horizontal : Direction
  | Vertical : Direction
deriving DecidableEq

/-- A rigid piece (`struct Piece`). -/
structure Piece where
  size : Nat
  location : Tile
  direction : Direction
  marked : Bool
deriving DecidableEq

/-- `Piece::new`: an unmarked piece. -/
def Piece.new (location : Tile) (size : Nat) (direction : Direction) : Piece :=
  { marked := false, location, direction, size }

/-- `Piece::marked`: a marked piece (named `marked'` because the field
projection `Piece.marked` already takes the source name). -/
def Piece.marked' (location : Tile) (size : Nat) (direction : Direction) : Piece :=
  { marked := true, location, direction, size }

/-- `Piece::occupies`: the `size` consecutive tiles from `location` along the
piece's axis. -/
def Piece.occupies (p : Piece) : List Tile :=
  (List.range p.size).map fun i =>
    match p.direction with
    | Direction.Horizontal => (p.location.1 + i, p.location.2)
    | Direction.Vertical => (p.location.1, p.location.2 + i)

/-- A move (`enum Move`): a direction, the origin tile of the piece being
moved, and a step count. -/
inductive Move where
  | Left : Tile → Nat → Move
  | Right : Tile → Nat → Move
  | Up : Tile → Nat → Move
  | Down : Tile → Nat → Move
deriving DecidableEq

/-- `Move::get_tile`: the tile from which the move occurs. -/
def Move.get_tile : Move → Tile
  | Move.Left t _ => t
  | Move.Right t _ => t
  | Move.Up t _ => t
  | Move.Down t _ => t

/-- The full board state (`struct Board`). -/
structure Board where
  width : Nat
  height : Nat
  goal : Tile
  is_won : Bool
  pieces : List Piece
  occupied_tiles : List Tile
deriving DecidableEq

/-- The associated function `Board::occupied_tiles(pieces)`: every tile
occupied by some piece of the list, by concatenation (`flat_map`). -/
def occupiedTilesOf (pieces : List Piece) : List Tile :=
  pieces.flatMap Piece.occupies

/-- `Board::new`: build a board, recomputing the occupancy list and the win
flag from the pieces. -/
def Board.new (width height : Nat) (goal : Tile) (pieces : List Piece) : Board :=
  { occupied_tiles := occupiedTilesOf pieces
    is_won := pieces.any fun p => p.marked && p.occupies.contains goal
    width
    height
    pieces
    goal }

/-- `Board::tile_exists`: both coordinates below the board dimensions. -/
def Board.tile_exists (b : Board) (t : Tile) : Bool :=
  decide (t.1 < b.width) && decide (t.2 < b.height)

/-- `Board::empty_tile`: the tile exists and is not occupied. -/
def Board.empty_tile (b : Board) (t : Tile) : Bool :=
  b.tile_exists t && !(b.occupied_tiles.contains t)

/-- The probing loop `for i in 1.. { if ok fails break; push (mk i) }` of
`Board::all_moves`, with explicit fuel.  The source loop is unbounded but
breaks at the latest when the probed tile leaves the grid; the callers below
pass fuel `width + 1` (or `height + 1`), which the lemmas `probe_mem_of` and
`mem_probe` show is never exhausted. -/
def probe (ok : Nat → Bool) (mk : Nat → Move) : Nat → Nat → List Move
  | 0, _ => []
  | fuel + 1, i => if ok i then mk i :: probe ok mk fuel (i + 1) else []

/-- The moves `Board::all_moves` pushes for one piece: probe outward from both
ends of the piece's footprint along its own axis, in source order (Right then
Left for a horizontal piece, Up then Down for a vertical one). -/
def Board.pieceMoves (b : Board) (p : Piece) : List Move :=
  match p.direction with
  | Direction.Horizontal =>
      probe (fun i => b.empty_tile (p.location.1 + p.size - 1 + i, p.location.2))
          (fun i => Move.Right p.location i) (b.width + 1) 1
        ++ probe (fun i => !decide (p.location.1 < i)
              && b.empty_tile (p.location.1 - i, p.location.2))
          (fun i => Move.Left p.location i) (b.width + 1) 1
  | Direction.Vertical =>
      probe (fun i => !decide (p.location.2 < i)
              && b.empty_tile (p.location.1, p.location.2 - i))
          (fun i => Move.Up p.location i) (b.height + 1) 1
        ++ probe (fun i => b.empty_tile (p.location.1, p.location.2 + p.size - 1 + i))
          (fun i => Move.Down p.location i) (b.height + 1) 1

/-- `Board::all_moves`: the per-piece moves, concatenated in piece order. -/
def Board.all_moves (b : Board) : List Move :=
  b.pieces.flatMap b.pieceMoves

/-- `Board::play`: relocate every piece whose location is the move's origin
tile by the move's offset, then rebuild the board with `Board::new`. -/
def Board.play (b : Board) (mov : Move) : Board :=
  let pieces := b.pieces.map fun p =>
    if p.location = mov.get_tile then
      match mov with
      | Move.Left _ steps => { p with location := (p.location.1 - steps, p.location.2) }
      | Move.Right _ steps => { p with location := (p.location.1 + steps, p.location.2) }
      | Move.Up _ steps => { p with location := (p.location.1, p.location.2 - steps) }
      | Move.Down _ steps => { p with location := (p.location.1, p.location.2 + steps) }
    else p
  Board.new b.width b.height b.goal pieces

/-- `Board::undo`: build the inverse move and play it. -/
def Board.undo (b : Board) (mov : Move) : Board :=
  let reverse_move :=
    match mov with
    | Move.Left (x, y) steps => Move.Right (x - steps, y) steps
    | Move.Right (x, y) steps => Move.Left (x + steps, y) steps
    | Move.Up (x, y) steps => Move.Down (x, y - steps) steps
    | Move.Down (x, y) steps => Move.Up (x, y + steps) steps
  b.play reverse_move

/-- `Board::future_boards`: each legal move paired with the board it
produces. -/
def Board.future_boards (b : Board) : List (Board × Move) :=
  b.all_moves.map fun next => (b.play next, next)

/-!
## The search engine (`solve`, src/main.rs)

The transposition table `visited : HashMap<Board, Option<Move>>` is embedded
as an association list: the map's stored values never influence `solve`
(they are only read by the path reconstruction in `main`), and `solve` only
queries it through `contains_key` and extends it through `insert`, so the
hash map's bucket order is irrelevant and a cons-based list is a faithful
model of its key set.
-/

/-- `visited.contains_key(board)` on the association-list model. -/
def containsKey (visited : List (Board × Option Move)) (b : Board) : Bool :=
  visited.any fun e => decide (e.1 = b)

/-- The filtering pass of `solve`'s loop: walk the candidate list in order,
dropping a board already in the table and inserting a surviving board into
the table keyed by its move, threading the table through (the closure passed
to `filter` mutates `visited` as it tests each element). -/
def dedupInsert (visited : List (Board × Option Move)) :
    List (Board × Move) → List (Board × Option Move) × List (Board × Move)
  | [] => (visited, [])
  | (b, m) :: rest =>
      if containsKey visited b then dedupInsert visited rest
      else ((dedupInsert ((b, some m) :: visited) rest).1,
            (b, m) :: (dedupInsert ((b, some m) :: visited) rest).2)

/-- The expansion pass of `solve`'s loop (`for (board, _) in boards`): scan
the admitted boards in order; at the first board whose `is_won` flag is set,
stop and report it; otherwise append the board's successors to the next
frontier. -/
def expand : List (Board × Move) → Option Board × List (Board × Move)
  | [] => (none, [])
  | (b, _) :: rest =>
      if b.is_won then (some b, [])
      else ((expand rest).1, b.future_boards ++ (expand rest).2)

/-- The `loop` of `solve`, with explicit fuel: one iteration filters the
frontier against the table, increments the ply counter, then scans the
admitted boards for a win, expanding the rest.  Fuel `0` stands for a run
that has not yet returned; the source loop has no other exit than the win
return, so divergence of the source is `∀ fuel, solveLoop ... = none`. -/
def solveLoop (visited : List (Board × Option Move)) (boards : List (Board × Move))
    (steps : Nat) : Nat → Option (Board × Nat)
  | 0 => none
  | fuel + 1 =>
      match expand (dedupInsert visited boards).2 with
      | (some b, _) => some (b, steps + 1)
      | (none, nb) => solveLoop (dedupInsert visited boards).1 nb (steps + 1) fuel

/-- `solve`: seed the table with the start board mapped to no predecessor,
seed the frontier with the start board's successors, and run the loop with
ply counter `0`. -/
def solve (start : Board) (fuel : Nat) : Option (Board × Nat) :=
  solveLoop [(start, none)] start.future_boards 0 fuel

/-!
## Reachability

`ReachN start b n`: some sequence of `n` moves, each legal by `all_moves` on
the board it is played from, transforms `start` into `b`.  This is the
specification-level notion of “n discrete slides”; it is defined from the
engine's own `all_moves`/`play`, as the spec's minimality sentence demands.
-/

/-- Reachability in exactly `n` slides, each legal by the engine's rules. -/
inductive ReachN (start : Board) : Board → Nat → Prop where
  | refl : ReachN start start 0
  | step {b : Board} {m : Move} {n : Nat} :
      ReachN start b n → m ∈ b.all_moves → ReachN start (b.play m) (n + 1)

/-- `b` is reachable in `n` slides and in no fewer. -/
def MinDist (start b : Board) (n : Nat) : Prop :=
  ReachN start b n ∧ ∀ k, k < n → ¬ ReachN start b k

/-- The keys of the association-list transposition table. -/
def keysOf (visited : List (Board × Option Move)) : List Board :=
  visited.map Prod.fst

/-- The loop invariant of `solve`'s breadth-first search, at entry to the
iteration that will set the ply counter to `k + 1`:
* the table holds exactly the boards whose minimum distance from the start
  is at most `k`;
* every frontier candidate was produced by playing a generated move on a
  board at minimum distance exactly `k`;
* every board at minimum distance `k + 1` occurs among the candidates;
* no board at minimum distance at most `k` is won. -/
structure SearchInv (start : Board) (visited : List (Board × Option Move))
    (boards : List (Board × Move)) (k : Nat) : Prop where
  visited_iff : ∀ b, b ∈ keysOf visited ↔ ∃ j, j ≤ k ∧ MinDist start b j
  frontier_sound : ∀ bm ∈ boards,
    ∃ b', MinDist start b' k ∧ bm.2 ∈ b'.all_moves ∧ bm.1 = b'.play bm.2
  frontier_complete : ∀ b, MinDist start b (k + 1) → ∃ m, (b, m) ∈ boards
  no_won_yet : ∀ b j, j ≤ k → MinDist start b j → b.is_won = false

/-!
## Concrete boards

The hand-built boards of the specification's testable-properties section,
used as concrete inputs for witnesses and the counterexample.

`scenario1`: a 3×1 board, one marked horizontal piece of size 1 at (0,0),
goal (2,0); its unique winning play is Right by 2, at ply 1.

`alreadyWonMovable`: a 4×1 board whose marked size-1 piece sits on the goal
tile (2,0) from the outset, plus an unmarked size-1 piece at (0,0) that can
still move; the start is already won (0 slides suffice) yet the engine only
tests boards discovered by expansion.

`stuck2x1`: the specification's concrete scenario 2 — a 2×1 board whose
marked size-2 horizontal piece fills the whole row with goal (1,0); it has
no legal move at all, so the frontier is empty from the first iteration. -/
def scenario1 : Board :=
  Board.new 3 1 (2, 0) [Piece.marked' (0, 0) 1 Direction.Horizontal]

/-- The board `solve` returns on `scenario1`: the marked piece slid onto the
goal tile. -/
def scenario1Won : Board :=
  Board.new 3 1 (2, 0) [Piece.marked' (2, 0) 1 Direction.Horizontal]

/-- A board that is already won at the root but still has legal moves. -/
def alreadyWonMovable : Board :=
  Board.new 4 1 (2, 0)
    [Piece.marked' (2, 0) 1 Direction.Horizontal,
     Piece.new (0, 0) 1 Direction.Horizontal]

/-- The board `solve` returns on `alreadyWonMovable`: the unmarked piece slid
one tile right, the marked piece still on the goal. -/
def alreadyWonMovableReturned : Board :=
  Board.new 4 1 (2, 0)
    [Piece.marked' (2, 0) 1 Direction.Horizontal,
     Piece.new (1, 0) 1 Direction.Horizontal]

/-- Concrete scenario 2 of the specification: the 2×1 board with one marked
size-2 horizontal piece at (0,0) and goal (1,0). -/
def stuck2x1 : Board :=
  Board.new 2 1 (1, 0) [Piece.marked' (0, 0) 2 Direction.Horizontal]

/-!
## Basic lemmas: projections, occupancy, the probing loop
-/

@[simp]
theorem Board.new_width (wd ht : Nat) (g : Tile) (ps : List Piece) :
    (Board.new wd ht g ps).width = wd := rfl

@[simp]
theorem Board.new_height (wd ht : Nat) (g : Tile) (ps : List Piece) :
    (Board.new wd ht g ps).height = ht := rfl

@[simp]
theorem Board.new_goal (wd ht : Nat) (g : Tile) (ps : List Piece) :
    (Board.new wd ht g ps).goal = g := rfl

@[simp]
theorem Board.new_pieces (wd ht : Nat) (g : Tile) (ps : List Piece) :
    (Board.new wd ht g ps).pieces = ps := rfl

@[simp]
theorem Board.new_occupied (wd ht : Nat) (g : Tile) (ps : List Piece) :
    (Board.new wd ht g ps).occupied_tiles = occupiedTilesOf ps := rfl

/-- A tile of `occupiedTilesOf ps` is a tile of some piece, and conversely. -/
theorem mem_occupiedTilesOf {ps : List Piece} {t : Tile} :
    t ∈ occupiedTilesOf ps ↔ ∃ p ∈ ps, t ∈ p.occupies := by
  simp [occupiedTilesOf]

/-- The tiles of a horizontal piece. -/
theorem mem_occupies_horiz {p : Piece} {t : Tile}
    (hd : p.direction = Direction.Horizontal) :
    t ∈ p.occupies ↔ ∃ i, i < p.size ∧ t = (p.location.1 + i, p.location.2) := by
  simp only [Piece.occupies, hd, List.mem_map, List.mem_range]
  constructor
  · rintro ⟨i, hi, rfl⟩; exact ⟨i, hi, rfl⟩
  · rintro ⟨i, hi, rfl⟩; exact ⟨i, hi, rfl⟩

/-- The tiles of a vertical piece. -/
theorem mem_occupies_vert {p : Piece} {t : Tile}
    (hd : p.direction = Direction.Vertical) :
    t ∈ p.occupies ↔ ∃ i, i < p.size ∧ t = (p.location.1, p.location.2 + i) := by
  simp only [Piece.occupies, hd, List.mem_map, List.mem_range]
  constructor
  · rintro ⟨i, hi, rfl⟩; exact ⟨i, hi, rfl⟩
  · rintro ⟨i, hi, rfl⟩; exact ⟨i, hi, rfl⟩

/-- A piece of positive size occupies its own location tile. -/
theorem location_mem_occupies {p : Piece} (hs : 1 ≤ p.size) :
    p.location ∈ p.occupies := by
  rcases hdir : p.direction with _ | _
  · rw [mem_occupies_horiz hdir]; exact ⟨0, hs, rfl⟩
  · rw [mem_occupies_vert hdir]; exact ⟨0, hs, rfl⟩

/-- A piece's tile list never repeats a tile. -/
theorem occupies_nodup (p : Piece) : p.occupies.Nodup := by
  refine List.Nodup.map ?_ (List.nodup_range _)
  intro i j hij
  rcases hdir : p.direction with _ | _ <;> simp only [hdir] at hij <;>
    simpa using hij

/-- An empty tile lies strictly inside both board dimensions. -/
theorem empty_tile_lt {b : Board} {t : Tile} (h : b.empty_tile t = true) :
    t.1 < b.width ∧ t.2 < b.height := by
  simp only [Board.empty_tile, Board.tile_exists, Bool.and_eq_true, decide_eq_true_eq] at h
  exact h.1

/-- An empty tile is on no piece's occupancy list. -/
theorem empty_tile_not_mem {b : Board} {t : Tile} (h : b.empty_tile t = true) :
    t ∉ b.occupied_tiles := by
  simp only [Board.empty_tile, Bool.and_eq_true, Bool.not_eq_true',
    ← Bool.not_eq_true (b.occupied_tiles.contains t)] at h
  exact fun hm => h.2 (List.elem_iff.mpr hm)

/-- Soundness of the probing loop: everything it emits is `mk j` for a `j`
in the fuel window on which every probe from the start up to `j` succeeded. -/
theorem mem_probe {ok : Nat → Bool} {mk : Nat → Move} {fuel start : Nat} {m : Move}
    (h : m ∈ probe ok mk fuel start) :
    ∃ j, start ≤ j ∧ j < start + fuel ∧ m = mk j ∧
      ∀ l, start ≤ l → l ≤ j → ok l = true := by
  induction fuel generalizing start with
  | zero => simp [probe] at h
  | succ fuel ih =>
    rw [probe] at h
    by_cases hok : ok start = true
    · rw [if_pos hok] at h
      rcases List.mem_cons.mp h with rfl | h
      · exact ⟨start, le_refl _, by omega, rfl, fun l h1 h2 => by
          have : l = start := by omega
          simpa [this] using hok⟩
      · obtain ⟨j, hj1, hj2, hj3, hj4⟩ := ih h
        refine ⟨j, by omega, by omega, hj3, fun l h1 h2 => ?_⟩
        rcases Nat.eq_or_lt_of_le h1 with rfl | h1
        · exact hok
        · exact hj4 l h1 h2
    · rw [if_neg hok] at h
      simp at h

/-- Completeness of the probing loop: if every probe up to `j` succeeds and
`j` is within the fuel window, `mk j` is emitted. -/
theorem probe_mem_of {ok : Nat → Bool} {mk : Nat → Move} {fuel start j : Nat}
    (h1 : start ≤ j) (h2 : j < start + fuel)
    (h3 : ∀ l, start ≤ l → l ≤ j → ok l = true) :
    mk j ∈ probe ok mk fuel start := by
  induction fuel generalizing start with
  | zero => omega
  | succ fuel ih =>
    have hok : ok start = true := h3 start (le_refl _) h1
    rw [probe, if_pos hok]
    rcases Nat.eq_or_lt_of_le h1 with rfl | h1
    · exact List.mem_cons_self _ _
    · exact List.mem_cons_of_mem _ (ih h1 (by omega) fun l hl1 hl2 => h3 l (by omega) hl2)

/-!
## Characterizing the move generator
-/

/-- A move is generated iff some piece's probe emits it. -/
theorem mem_all_moves {b : Board} {m : Move} :
    m ∈ b.all_moves ↔ ∃ p ∈ b.pieces, m ∈ b.pieceMoves p := by
  simp [Board.all_moves]

/-- Right moves of a horizontal piece: exactly the step counts `1..k` where
every passed-over tile beyond the piece's right end is empty. -/
theorem pieceMoves_right_mem {b : Board} {p : Piece}
    (hd : p.direction = Direction.Horizontal) (i : Nat) :
    Move.Right p.location i ∈ b.pieceMoves p ↔
      1 ≤ i ∧ ∀ j, 1 ≤ j → j ≤ i →
        b.empty_tile (p.location.1 + p.size - 1 + j, p.location.2) = true := by
  unfold Board.pieceMoves
  rw [hd]
  simp only [List.mem_append]
  constructor
  · rintro (h | h)
    · obtain ⟨j, hj1, hj2, hj3, hj4⟩ := mem_probe h
      simp only [Move.Right.injEq, true_and] at hj3
      subst hj3
      exact ⟨hj1, fun l h1 h2 => hj4 l h1 h2⟩
    · obtain ⟨j, hj1, hj2, hj3, hj4⟩ := mem_probe h
      simp at hj3
  · rintro ⟨h1, h2⟩
    have hb : p.location.1 + p.size - 1 + i < b.width :=
      (empty_tile_lt (h2 i h1 (le_refl _))).1
    exact Or.inl (probe_mem_of h1 (by omega) fun l hl1 hl2 => h2 l hl1 hl2)

/-- Left moves of a horizontal piece: exactly the step counts `1..k` where
the slide stays on the grid (no coordinate underflow) and every passed-over
tile beyond the piece's left end is empty. -/
theorem pieceMoves_left_mem {b : Board} {p : Piece}
    (hd : p.direction = Direction.Horizontal) (i : Nat) :
    Move.Left p.location i ∈ b.pieceMoves p ↔
      1 ≤ i ∧ i ≤ p.location.1 ∧ ∀ j, 1 ≤ j → j ≤ i →
        b.empty_tile (p.location.1 - j, p.location.2) = true := by
  unfold Board.pieceMoves
  rw [hd]
  simp only [List.mem_append]
  constructor
  · rintro (h | h)
    · obtain ⟨j, hj1, hj2, hj3, hj4⟩ := mem_probe h
      simp at hj3
    · obtain ⟨j, hj1, hj2, hj3, hj4⟩ := mem_probe h
      simp only [Move.Left.injEq, true_and] at hj3
      subst hj3
      have hguard : ∀ l, 1 ≤ l → l ≤ i →
          ¬ p.location.1 < l ∧ b.empty_tile (p.location.1 - l, p.location.2) = true := by
        intro l h1 h2
        have := hj4 l h1 h2
        simp only [Bool.and_eq_true, Bool.not_eq_true', decide_eq_false_iff_not] at this
        exact this
      exact ⟨hj1, by have := (hguard i hj1 (le_refl _)).1; omega,
        fun l h1 h2 => (hguard l h1 h2).2⟩
  · rintro ⟨h1, h2, h3⟩
    have hx : 1 ≤ p.location.1 := le_trans h1 h2
    have hb : p.location.1 - 1 < b.width := (empty_tile_lt (h3 1 (le_refl _) h1)).1
    refine Or.inr (probe_mem_of h1 (by omega) fun l hl1 hl2 => ?_)
    simp only [Bool.and_eq_true, Bool.not_eq_true', decide_eq_false_iff_not]
    exact ⟨by omega, h3 l hl1 hl2⟩

/-- Up moves of a vertical piece: exactly the step counts `1..k` staying on
the grid with every passed-over tile above the piece's top end empty. -/
theorem pieceMoves_up_mem {b : Board} {p : Piece}
    (hd : p.direction = Direction.Vertical) (i : Nat) :
    Move.Up p.location i ∈ b.pieceMoves p ↔
      1 ≤ i ∧ i ≤ p.location.2 ∧ ∀ j, 1 ≤ j → j ≤ i →
        b.empty_tile (p.location.1, p.location.2 - j) = true := by
  unfold Board.pieceMoves
  rw [hd]
  simp only [List.mem_append]
  constructor
  · rintro (h | h)
    · obtain ⟨j, hj1, hj2, hj3, hj4⟩ := mem_probe h
      simp only [Move.Up.injEq, true_and] at hj3
      subst hj3
      have hguard : ∀ l, 1 ≤ l → l ≤ i →
          ¬ p.location.2 < l ∧ b.empty_tile (p.location.1, p.location.2 - l) = true := by
        intro l h1 h2
        have := hj4 l h1 h2
        simp only [Bool.and_eq_true, Bool.not_eq_true', decide_eq_false_iff_not] at this
        exact this
      exact ⟨hj1, by have := (hguard i hj1 (le_refl _)).1; omega,
        fun l h1 h2 => (hguard l h1 h2).2⟩
    · obtain ⟨j, hj1, hj2, hj3, hj4⟩ := mem_probe h
      simp at hj3
  · rintro ⟨h1, h2, h3⟩
    have hy : 1 ≤ p.location.2 := le_trans h1 h2
    have hb : p.location.2 - 1 < b.height := (empty_tile_lt (h3 1 (le_refl _) h1)).2
    refine Or.inl (probe_mem_of h1 (by omega) fun l hl1 hl2 => ?_)
    simp only [Bool.and_eq_true, Bool.not_eq_true', decide_eq_false_iff_not]
    exact ⟨by omega, h3 l hl1 hl2⟩

/-- Down moves of a vertical piece: exactly the step counts `1..k` where
every passed-over tile below the piece's bottom end is empty. -/
theorem pieceMoves_down_mem {b : Board} {p : Piece}
    (hd : p.direction = Direction.Vertical) (i : Nat) :
    Move.Down p.location i ∈ b.pieceMoves p ↔
      1 ≤ i ∧ ∀ j, 1 ≤ j → j ≤ i →
        b.empty_tile (p.location.1, p.location.2 + p.size - 1 + j) = true := by
  unfold Board.pieceMoves
  rw [hd]
  simp only [List.mem_append]
  constructor
  · rintro (h | h)
    · obtain ⟨j, hj1, hj2, hj3, hj4⟩ := mem_probe h
      simp at hj3
    · obtain ⟨j, hj1, hj2, hj3, hj4⟩ := mem_probe h
      simp only [Move.Down.injEq, true_and] at hj3
      subst hj3
      exact ⟨hj1, fun l h1 h2 => hj4 l h1 h2⟩
  · rintro ⟨h1, h2⟩
    have hb : p.location.2 + p.size - 1 + i < b.height :=
      (empty_tile_lt (h2 i h1 (le_refl _))).2
    exact Or.inr (probe_mem_of h1 (by omega) fun l hl1 hl2 => h2 l hl1 hl2)

/-- Every move emitted for a horizontal piece is a Right or Left slide from
the piece's own location with a positive step count. -/
theorem pieceMoves_shape_horiz {b : Board} {p : Piece} {m : Move}
    (hd : p.direction = Direction.Horizontal) (h : m ∈ b.pieceMoves p) :
    ∃ i, 1 ≤ i ∧ (m = Move.Right p.location i ∨ m = Move.Left p.location i) := by
  unfold Board.pieceMoves at h
  rw [hd] at h
  rcases List.mem_append.mp h with h | h <;>
    obtain ⟨j, hj1, hj2, hj3, hj4⟩ := mem_probe h
  · exact ⟨j, hj1, Or.inl hj3⟩
  · exact ⟨j, hj1, Or.inr hj3⟩

/-- Every move emitted for a vertical piece is an Up or Down slide from the
piece's own location with a positive step count. -/
theorem pieceMoves_shape_vert {b : Board} {p : Piece} {m : Move}
    (hd : p.direction = Direction.Vertical) (h : m ∈ b.pieceMoves p) :
    ∃ i, 1 ≤ i ∧ (m = Move.Up p.location i ∨ m = Move.Down p.location i) := by
  unfold Board.pieceMoves at h
  rw [hd] at h
  rcases List.mem_append.mp h with h | h <;>
    obtain ⟨j, hj1, hj2, hj3, hj4⟩ := mem_probe h
  · exact ⟨j, hj1, Or.inl hj3⟩
  · exact ⟨j, hj1, Or.inr hj3⟩

/-!
## Playing and undoing a move
-/

/-- On a board of pairwise non-overlapping pieces of positive size, a piece
whose location tile lies on another piece's footprint is that piece. -/
theorem piece_eq_of_location_mem {ps : List Piece} {p q : Piece}
    (hdisj : ps.Pairwise fun p q => ∀ t, t ∈ p.occupies → ¬ t ∈ q.occupies)
    (hp : p ∈ ps) (hq : q ∈ ps) (hs : 1 ≤ p.size)
    (hmem : p.location ∈ q.occupies) : p = q := by
  by_contra hne
  have hsymm : Symmetric fun p q : Piece => ∀ t, t ∈ p.occupies → ¬ t ∈ q.occupies :=
    fun a c hac t htc hta => hac t hta htc
  exact hdisj.forall hsymm hp hq hne p.location (location_mem_occupies hs) hmem

/-- No piece of positive size has its location on a tile the board reports
empty. -/
theorem location_ne_of_empty {wd ht : Nat} {g : Tile} {ps : List Piece} {p : Piece}
    {t : Tile} (hp : p ∈ ps) (hs : 1 ≤ p.size)
    (he : (Board.new wd ht g ps).empty_tile t = true) : p.location ≠ t := by
  intro h
  exact empty_tile_not_mem he
    (by rw [Board.new_occupied]; exact mem_occupiedTilesOf.mpr ⟨p, hp, h ▸ location_mem_occupies hs⟩)

/-- `play` then `undo` restores a well-formed board for any move the board
itself generates.  Well-formed: every piece has positive size and no two
pieces overlap (the specification's stated precondition on inputs). -/
theorem play_undo_of_mem {wd ht : Nat} {g : Tile} {ps : List Piece} {m : Move}
    (hsz : ∀ p ∈ ps, 1 ≤ p.size)
    (hdisj : ps.Pairwise fun p q => ∀ t, t ∈ p.occupies → ¬ t ∈ q.occupies)
    (hm : m ∈ (Board.new wd ht g ps).all_moves) :
    ((Board.new wd ht g ps).play m).undo m = Board.new wd ht g ps := by
  obtain ⟨p₀, hp₀, hm₀⟩ := mem_all_moves.mp hm
  obtain ⟨sz, ⟨x, y⟩, dir, mrk⟩ := p₀
  have hsz₀ : 1 ≤ sz := hsz _ hp₀
  cases dir with
  | Horizontal =>
    obtain ⟨i, hi, hshape⟩ := pieceMoves_shape_horiz rfl hm₀
    rcases hshape with rfl | rfl
    · obtain ⟨-, hpref⟩ := (pieceMoves_right_mem (b := Board.new wd ht g ps) rfl i).mp hm₀
      simp only [Board.undo, Board.play, Move.get_tile, Board.new_width, Board.new_height,
        Board.new_goal, Board.new_pieces, List.map_map]
      refine congrArg (Board.new wd ht g) ?_
      conv_rhs => rw [← List.map_id ps]
      refine List.map_congr_left fun p hp => ?_
      obtain ⟨psz, ⟨px, py⟩, pdir, pmrk⟩ := p
      by_cases hploc : ((px, py) : Tile) = (x, y)
      · simp only [Prod.mk.injEq] at hploc
        obtain ⟨rfl, rfl⟩ := hploc
        simp [Nat.add_sub_cancel]
      · have hne : ((px, py) : Tile) ≠ (x + i, y) := by
          intro h
          by_cases hcase : i < sz
          · have hocc : ((x + i, y) : Tile) ∈
                Piece.occupies ⟨sz, (x, y), Direction.Horizontal, mrk⟩ :=
              (mem_occupies_horiz rfl).mpr ⟨i, hcase, rfl⟩
            have hmem : (Piece.location ⟨psz, (px, py), pdir, pmrk⟩) ∈
                Piece.occupies ⟨sz, (x, y), Direction.Horizontal, mrk⟩ := by
              rw [show Piece.location ⟨psz, (px, py), pdir, pmrk⟩ = ((px, py) : Tile) from rfl, h]
              exact hocc
            have heq := piece_eq_of_location_mem hdisj hp hp₀ (hsz _ hp) hmem
            have hll : ((px, py) : Tile) = (x, y) := congrArg Piece.location heq
            rw [hll] at h
            simp only [Prod.mk.injEq] at h
            omega
          · have hj : (Board.new wd ht g ps).empty_tile (x + sz - 1 + (i - sz + 1), y) = true :=
              hpref (i - sz + 1) (by omega) (by omega)
            rw [(by omega : x + sz - 1 + (i - sz + 1) = x + i)] at hj
            exact location_ne_of_empty hp (hsz _ hp) hj h
        simp [hploc, hne]
    · obtain ⟨-, hix, hpref⟩ := (pieceMoves_left_mem (b := Board.new wd ht g ps) rfl i).mp hm₀
      have hix' : i ≤ x := hix
      simp only [Board.undo, Board.play, Move.get_tile, Board.new_width, Board.new_height,
        Board.new_goal, Board.new_pieces, List.map_map]
      refine congrArg (Board.new wd ht g) ?_
      conv_rhs => rw [← List.map_id ps]
      refine List.map_congr_left fun p hp => ?_
      obtain ⟨psz, ⟨px, py⟩, pdir, pmrk⟩ := p
      by_cases hploc : ((px, py) : Tile) = (x, y)
      · simp only [Prod.mk.injEq] at hploc
        obtain ⟨rfl, rfl⟩ := hploc
        simp [(by omega : px - i + i = px)]
      · have hne : ((px, py) : Tile) ≠ (x - i, y) := by
          have hj : (Board.new wd ht g ps).empty_tile (x - i, y) = true :=
            hpref i hi (le_refl _)
          exact location_ne_of_empty hp (hsz _ hp) hj
        simp [hploc, hne]
  | Vertical =>
    obtain ⟨i, hi, hshape⟩ := pieceMoves_shape_vert rfl hm₀
    rcases hshape with rfl | rfl
    · obtain ⟨-, hiy, hpref⟩ := (pieceMoves_up_mem (b := Board.new wd ht g ps) rfl i).mp hm₀
      have hiy' : i ≤ y := hiy
      simp only [Board.undo, Board.play, Move.get_tile, Board.new_width, Board.new_height,
        Board.new_goal, Board.new_pieces, List.map_map]
      refine congrArg (Board.new wd ht g) ?_
      conv_rhs => rw [← List.map_id ps]
      refine List.map_congr_left fun p hp => ?_
      obtain ⟨psz, ⟨px, py⟩, pdir, pmrk⟩ := p
      by_cases hploc : ((px, py) : Tile) = (x, y)
      · simp only [Prod.mk.injEq] at hploc
        obtain ⟨rfl, rfl⟩ := hploc
        simp [(by omega : py - i + i = py)]
      · have hne : ((px, py) : Tile) ≠ (x, y - i) := by
          have hj : (Board.new wd ht g ps).empty_tile (x, y - i) = true :=
            hpref i hi (le_refl _)
          exact location_ne_of_empty hp (hsz _ hp) hj
        simp [hploc, hne]
    · obtain ⟨-, hpref⟩ := (pieceMoves_down_mem (b := Board.new wd ht g ps) rfl i).mp hm₀
      simp only [Board.undo, Board.play, Move.get_tile, Board.new_width, Board.new_height,
        Board.new_goal, Board.new_pieces, List.map_map]
      refine congrArg (Board.new wd ht g) ?_
      conv_rhs => rw [← List.map_id ps]
      refine List.map_congr_left fun p hp => ?_
      obtain ⟨psz, ⟨px, py⟩, pdir, pmrk⟩ := p
      by_cases hploc : ((px, py) : Tile) = (x, y)
      · simp only [Prod.mk.injEq] at hploc
        obtain ⟨rfl, rfl⟩ := hploc
        simp [Nat.add_sub_cancel]
      · have hne : ((px, py) : Tile) ≠ (x, y + i) := by
          intro h
          by_cases hcase : i < sz
          · have hocc : ((x, y + i) : Tile) ∈
                Piece.occupies ⟨sz, (x, y), Direction.Vertical, mrk⟩ :=
              (mem_occupies_vert rfl).mpr ⟨i, hcase, rfl⟩
            have hmem : (Piece.location ⟨psz, (px, py), pdir, pmrk⟩) ∈
                Piece.occupies ⟨sz, (x, y), Direction.Vertical, mrk⟩ := by
              rw [show Piece.location ⟨psz, (px, py), pdir, pmrk⟩ = ((px, py) : Tile) from rfl, h]
              exact hocc
            have heq := piece_eq_of_location_mem hdisj hp hp₀ (hsz _ hp) hmem
            have hll : ((px, py) : Tile) = (x, y) := congrArg Piece.location heq
            rw [hll] at h
            simp only [Prod.mk.injEq] at h
            omega
          · have hj : (Board.new wd ht g ps).empty_tile (x, y + sz - 1 + (i - sz + 1)) = true :=
              hpref (i - sz + 1) (by omega) (by omega)
            rw [(by omega : y + sz - 1 + (i - sz + 1) = y + i)] at hj
            exact location_ne_of_empty hp (hsz _ hp) hj h
        simp [hploc, hne]

/-!
## Reachability lemmas
-/

/-- Reaching a board in zero slides means being that board. -/
theorem reachN_zero {start b : Board} (h : ReachN start b 0) : b = start := by
  cases h
  rfl

/-- Every reachable board has a well-defined minimum distance. -/
theorem reach_minDist {start b : Board} :
    ∀ {n : Nat}, ReachN start b n → ∃ j, j ≤ n ∧ MinDist start b j := by
  intro n
  induction n using Nat.strong_induction_on with
  | _ n ih =>
    intro h
    by_cases hex : ∃ k, k < n ∧ ReachN start b k
    · obtain ⟨k, hk, hr⟩ := hex
      obtain ⟨j, hj1, hj2⟩ := ih k hk hr
      exact ⟨j, by omega, hj2⟩
    · exact ⟨n, le_refl _, h, fun k hk hr => hex ⟨k, hk, hr⟩⟩

/-- Minimum distances are unique. -/
theorem minDist_unique {start b : Board} {j k : Nat}
    (hj : MinDist start b j) (hk : MinDist start b k) : j = k := by
  by_contra hne
  rcases Nat.lt_or_ge j k with h | h
  · exact hk.2 j h hj.1
  · rcases Nat.lt_or_ge k j with h2 | h2
    · exact hj.2 k h2 hk.1
    · omega

/-- The unique board at minimum distance zero is the start board. -/
theorem minDist_zero_iff {start b : Board} : MinDist start b 0 ↔ b = start := by
  constructor
  · intro h
    exact reachN_zero h.1
  · rintro rfl
    exact ⟨ReachN.refl, fun k hk => (Nat.not_lt_zero k hk).elim⟩

/-- A board at minimum distance `n + 1` is one legal move away from some
board at minimum distance exactly `n`. -/
theorem minDist_succ_pred {start b : Board} {n : Nat} (h : MinDist start b (n + 1)) :
    ∃ b' m, MinDist start b' n ∧ m ∈ b'.all_moves ∧ b = b'.play m := by
  obtain ⟨hr, hmin⟩ := h
  cases hr with
  | step hr' hmem =>
    rename_i b₁ m
    obtain ⟨j, hj, hmd⟩ := reach_minDist hr'
    have hjn : j = n := by
      rcases Nat.eq_or_lt_of_le hj with rfl | hlt
      · rfl
      · exact absurd (ReachN.step hmd.1 hmem) (hmin (j + 1) (by omega))
    subst hjn
    exact ⟨b₁, m, hmd, hmem, rfl⟩

/-!
## Engine lemmas
-/

/-- `contains_key` tests membership in the table's key set. -/
theorem containsKey_iff {v : List (Board × Option Move)} {b : Board} :
    containsKey v b = true ↔ b ∈ keysOf v := by
  simp only [containsKey, keysOf, List.any_eq_true, decide_eq_true_eq, List.mem_map]

/-- After the filtering pass, the table's keys are the old keys plus every
candidate board (each candidate is either filtered because already present,
or inserted). -/
theorem dedupInsert_keys {bs : List (Board × Move)} {v : List (Board × Option Move)}
    {b : Board} :
    b ∈ keysOf (dedupInsert v bs).1 ↔ b ∈ keysOf v ∨ ∃ m, (b, m) ∈ bs := by
  induction bs generalizing v with
  | nil => simp [dedupInsert]
  | cons hd tl ih =>
    obtain ⟨b₀, m₀⟩ := hd
    by_cases hc : containsKey v b₀ = true
    · rw [dedupInsert, if_pos hc, ih]
      constructor
      · rintro (h | ⟨m, hm⟩)
        · exact Or.inl h
        · exact Or.inr ⟨m, List.mem_cons_of_mem _ hm⟩
      · rintro (h | ⟨m, hm⟩)
        · exact Or.inl h
        · rcases List.mem_cons.mp hm with heq | hm
          · obtain ⟨rfl, rfl⟩ : b = b₀ ∧ m = m₀ := by simpa using heq
            exact Or.inl (containsKey_iff.mp hc)
          · exact Or.inr ⟨m, hm⟩
    · rw [dedupInsert, if_neg hc]
      have : b ∈ keysOf (dedupInsert ((b₀, some m₀) :: v) tl).1 ↔
          b ∈ keysOf ((b₀, some m₀) :: v) ∨ ∃ m, (b, m) ∈ tl := ih
      rw [show keysOf ((dedupInsert ((b₀, some m₀) :: v) tl).1,
            (b₀, m₀) :: (dedupInsert ((b₀, some m₀) :: v) tl).2).1 =
          keysOf (dedupInsert ((b₀, some m₀) :: v) tl).1 from rfl, this]
      simp only [keysOf, List.map_cons, List.mem_cons]
      constructor
      · rintro ((rfl | h) | ⟨m, hm⟩)
        · exact Or.inr ⟨m₀, Or.inl rfl⟩
        · exact Or.inl h
        · exact Or.inr ⟨m, Or.inr hm⟩
      · rintro (h | ⟨m, hm⟩)
        · exact Or.inl (Or.inr h)
        · rcases hm with heq | hm
          · obtain ⟨rfl, rfl⟩ : b = b₀ ∧ m = m₀ := by simpa using heq
            exact Or.inl (Or.inl rfl)
          · exact Or.inr ⟨m, hm⟩

/-- Every admitted pair comes from the candidate list and its board was not
yet in the table. -/
theorem dedupInsert_admitted_sound {bs : List (Board × Move)}
    {v : List (Board × Option Move)} {bm : Board × Move}
    (h : bm ∈ (dedupInsert v bs).2) : bm ∈ bs ∧ bm.1 ∉ keysOf v := by
  induction bs generalizing v with
  | nil => simp [dedupInsert] at h
  | cons hd tl ih =>
    obtain ⟨b₀, m₀⟩ := hd
    by_cases hc : containsKey v b₀ = true
    · rw [dedupInsert, if_pos hc] at h
      obtain ⟨h1, h2⟩ := ih h
      exact ⟨List.mem_cons_of_mem _ h1, h2⟩
    · rw [dedupInsert, if_neg hc] at h
      rcases List.mem_cons.mp h with rfl | h
      · exact ⟨List.mem_cons_self _ _, fun hk => hc (containsKey_iff.mpr hk)⟩
      · obtain ⟨h1, h2⟩ := ih h
        refine ⟨List.mem_cons_of_mem _ h1, fun hk => h2 ?_⟩
        simp only [keysOf, List.map_cons, List.mem_cons]
        exact Or.inr (by simpa [keysOf] using hk)

/-- Every candidate board not yet in the table is admitted (with the move of
its first occurrence). -/
theorem dedupInsert_admitted_complete {bs : List (Board × Move)}
    {v : List (Board × Option Move)} {b : Board} {m : Move}
    (hmem : (b, m) ∈ bs) (hnk : b ∉ keysOf v) :
    ∃ m', (b, m') ∈ (dedupInsert v bs).2 := by
  induction bs generalizing v with
  | nil => simp at hmem
  | cons hd tl ih =>
    obtain ⟨b₀, m₀⟩ := hd
    by_cases hc : containsKey v b₀ = true
    · rw [dedupInsert, if_pos hc]
      rcases List.mem_cons.mp hmem with heq | hm
      · obtain ⟨rfl, rfl⟩ : b = b₀ ∧ m = m₀ := by simpa using heq
        exact absurd (containsKey_iff.mp hc) hnk
      · exact ih hm hnk
    · rw [dedupInsert, if_neg hc]
      by_cases hb : b = b₀
      · subst hb
        exact ⟨m₀, List.mem_cons_self _ _⟩
      · rcases List.mem_cons.mp hmem with heq | hm
        · obtain ⟨rfl, rfl⟩ : b = b₀ ∧ m = m₀ := by simpa using heq
          exact absurd rfl hb
        · have hnk' : b ∉ keysOf ((b₀, some m₀) :: v) := by
            simp only [keysOf, List.map_cons, List.mem_cons]
            rintro (rfl | h)
            · exact hb rfl
            · exact hnk (by simpa [keysOf] using h)
          obtain ⟨m', hm'⟩ := ih hm hnk'
          exact ⟨m', List.mem_cons_of_mem _ hm'⟩

/-- A successor pair is a generated move together with the board it plays
to. -/
theorem mem_future_boards {b : Board} {x : Board × Move} :
    x ∈ b.future_boards ↔ ∃ m ∈ b.all_moves, x = (b.play m, m) := by
  simp only [Board.future_boards, List.mem_map]
  constructor
  · rintro ⟨m, hm, rfl⟩
    exact ⟨m, hm, rfl⟩
  · rintro ⟨m, hm, rfl⟩
    exact ⟨m, hm, rfl⟩

/-- If the expansion pass reports no win, no scanned board was won and every
scanned board's successors all reached the next frontier. -/
theorem expand_none {bs nb : List (Board × Move)} (h : expand bs = (none, nb)) :
    (∀ bm ∈ bs, bm.1.is_won = false) ∧
      ∀ bm ∈ bs, ∀ x ∈ bm.1.future_boards, x ∈ nb := by
  induction bs generalizing nb with
  | nil =>
    exact ⟨fun bm hbm => absurd hbm (List.not_mem_nil bm),
      fun bm hbm => absurd hbm (List.not_mem_nil bm)⟩
  | cons hd tl ih =>
    obtain ⟨b₀, m₀⟩ := hd
    by_cases hw : b₀.is_won = true
    · rw [expand, if_pos hw] at h
      simp at h
    · rw [expand, if_neg hw] at h
      obtain ⟨h1, h2⟩ := Prod.mk.injEq .. ▸ h
      have h1' : (expand tl).1 = none := by
        have := congrArg Prod.fst h
        simpa using this
      have h2' : nb = b₀.future_boards ++ (expand tl).2 := by
        have := congrArg Prod.snd h
        simpa using this.symm
      obtain ⟨ihw, ihm⟩ := ih (Prod.ext h1' rfl)
      refine ⟨?_, ?_⟩
      · rintro bm hbm
        rcases List.mem_cons.mp hbm with rfl | hbm
        · simpa using hw
        · exact ihw bm hbm
      · rintro bm hbm x hx
        rcases List.mem_cons.mp hbm with rfl | hbm
        · rw [h2']
          exact List.mem_append_left _ hx
        · rw [h2']
          exact List.mem_append_right _ (ihm bm hbm x hx)

/-- If the expansion pass reports a win, the reported board is a won board
from the scanned list. -/
theorem expand_some {bs : List (Board × Move)} {w : Board} {rest : List (Board × Move)}
    (h : expand bs = (some w, rest)) : w.is_won = true ∧ ∃ m, (w, m) ∈ bs := by
  induction bs generalizing rest with
  | nil => simp [expand] at h
  | cons hd tl ih =>
    obtain ⟨b₀, m₀⟩ := hd
    by_cases hw : b₀.is_won = true
    · rw [expand, if_pos hw] at h
      have : some b₀ = some w := by simpa using congrArg Prod.fst h
      obtain rfl : b₀ = w := by simpa using this
      exact ⟨hw, m₀, List.mem_cons_self _ _⟩
    · rw [expand, if_neg hw] at h
      have h1 : (expand tl).1 = some w := by simpa using congrArg Prod.fst h
      obtain ⟨hw', m, hm⟩ := ih (Prod.ext h1 rfl)
      exact ⟨hw', m, List.mem_cons_of_mem _ hm⟩

/-- Conversely, everything on the next frontier is a successor of some
scanned board. -/
theorem expand_none_mem {bs nb : List (Board × Move)} (h : expand bs = (none, nb)) :
    ∀ x ∈ nb, ∃ bm ∈ bs, x ∈ bm.1.future_boards := by
  induction bs generalizing nb with
  | nil =>
    have : nb = [] := by simpa using (congrArg Prod.snd h).symm
    subst this
    intro x hx
    exact absurd hx (List.not_mem_nil x)
  | cons hd tl ih =>
    obtain ⟨b₀, m₀⟩ := hd
    by_cases hw : b₀.is_won = true
    · rw [expand, if_pos hw] at h
      simp at h
    · rw [expand, if_neg hw] at h
      have h1 : (expand tl).1 = none := by simpa using congrArg Prod.fst h
      have h2 : nb = b₀.future_boards ++ (expand tl).2 := by
        simpa using (congrArg Prod.snd h).symm
      intro x hx
      rw [h2] at hx
      rcases List.mem_append.mp hx with hx | hx
      · exact ⟨(b₀, m₀), List.mem_cons_self _ _, hx⟩
      · obtain ⟨bm, hbm, hf⟩ := ih (Prod.ext h1 rfl) x hx
        exact ⟨bm, List.mem_cons_of_mem _ hbm, hf⟩

/-- Any successful return of the search loop reports a won board with a ply
count strictly above the counter the loop was entered with. -/
theorem solveLoop_won_pos :
    ∀ fuel {v : List (Board × Option Move)} {bs : List (Board × Move)} {k : Nat}
      {w : Board} {n : Nat}, solveLoop v bs k fuel = some (w, n) →
      k + 1 ≤ n ∧ w.is_won = true := by
  intro fuel
  induction fuel with
  | zero =>
    intro v bs k w n h
    simp [solveLoop] at h
  | succ fuel ih =>
    intro v bs k w n h
    rcases hexp : expand (dedupInsert v bs).2 with ⟨o, nb⟩
    rw [solveLoop, hexp] at h
    cases o with
    | some b =>
      have hbn : b = w ∧ k + 1 = n := by simpa using h
      obtain ⟨rfl, rfl⟩ := hbn
      exact ⟨le_refl _, (expand_some hexp).1⟩
    | none =>
      have := ih h
      exact ⟨by omega, this.2⟩

/-- The breadth-first loop preserves `SearchInv`; whenever it returns, the
reported board is won, reachable in exactly the reported number of plies, and
no won board is reachable in fewer plies. -/
theorem solveLoop_minDist {start : Board} :
    ∀ fuel {v : List (Board × Option Move)} {bs : List (Board × Move)} {k : Nat}
      {w : Board} {n : Nat},
      SearchInv start v bs k → solveLoop v bs k fuel = some (w, n) →
      w.is_won = true ∧ ReachN start w n ∧
        ∀ j B, ReachN start B j → B.is_won = true → n ≤ j := by
  intro fuel
  induction fuel with
  | zero =>
    intro v bs k w n _ h
    simp [solveLoop] at h
  | succ fuel ih =>
    intro v bs k w n hinv h
    have hA : ∀ bm ∈ (dedupInsert v bs).2, MinDist start bm.1 (k + 1) := by
      intro bm hbm
      obtain ⟨hbs, hnk⟩ := dedupInsert_admitted_sound hbm
      obtain ⟨b', hb', hmv, heq⟩ := hinv.frontier_sound bm hbs
      have hr : ReachN start bm.1 (k + 1) := by
        rw [heq]
        exact ReachN.step hb'.1 hmv
      obtain ⟨j, hj, hmd⟩ := reach_minDist hr
      rcases Nat.eq_or_lt_of_le hj with rfl | hlt
      · exact hmd
      · exact absurd ((hinv.visited_iff bm.1).mpr ⟨j, by omega, hmd⟩) hnk
    have hB : ∀ b, MinDist start b (k + 1) → ∃ m, (b, m) ∈ (dedupInsert v bs).2 := by
      intro b hb
      obtain ⟨m, hm⟩ := hinv.frontier_complete b hb
      have hnk : b ∉ keysOf v := by
        intro hk
        obtain ⟨j, hj, hmd⟩ := (hinv.visited_iff b).mp hk
        have := minDist_unique hb hmd
        omega
      exact dedupInsert_admitted_complete hm hnk
    rcases hexp : expand (dedupInsert v bs).2 with ⟨o, nb⟩
    rw [solveLoop, hexp] at h
    cases o with
    | some b =>
      obtain ⟨hw, m, hm⟩ := expand_some hexp
      have hbn : b = w ∧ k + 1 = n := by simpa using h
      obtain ⟨rfl, rfl⟩ := hbn
      have hmdw : MinDist start b (k + 1) := hA (b, m) hm
      refine ⟨hw, hmdw.1, ?_⟩
      intro j B hrB hwon
      by_contra hlt
      push_neg at hlt
      obtain ⟨j', hj', hmd'⟩ := reach_minDist hrB
      have hfalse := hinv.no_won_yet B j' (by omega) hmd'
      rw [hwon] at hfalse
      exact absurd hfalse (by simp)
    | none =>
      obtain ⟨hnowon, hsubset⟩ := expand_none hexp
      have hinv' : SearchInv start (dedupInsert v bs).1 nb (k + 1) := by
        constructor
        · intro b
          rw [dedupInsert_keys]
          constructor
          · rintro (hk | ⟨m, hm⟩)
            · obtain ⟨j, hj, hmd⟩ := (hinv.visited_iff b).mp hk
              exact ⟨j, by omega, hmd⟩
            · obtain ⟨b', hb', hmv, heq⟩ := hinv.frontier_sound (b, m) hm
              have hr : ReachN start b (k + 1) := by
                rw [show b = b'.play m from heq]
                exact ReachN.step hb'.1 hmv
              obtain ⟨j, hj, hmd⟩ := reach_minDist hr
              exact ⟨j, hj, hmd⟩
          · rintro ⟨j, hj, hmd⟩
            rcases Nat.eq_or_lt_of_le hj with rfl | hlt
            · obtain ⟨m, hm⟩ := hinv.frontier_complete b hmd
              exact Or.inr ⟨m, hm⟩
            · exact Or.inl ((hinv.visited_iff b).mpr ⟨j, by omega, hmd⟩)
        · intro bm hbm
          obtain ⟨bm', hbm', hx⟩ := expand_none_mem hexp bm hbm
          obtain ⟨m, hmv, heq⟩ := mem_future_boards.mp hx
          subst heq
          exact ⟨bm'.1, hA bm' hbm', hmv, rfl⟩
        · intro B hB2
          obtain ⟨b', m', hmd', hmv', heq'⟩ := minDist_succ_pred hB2
          obtain ⟨mm, hmm⟩ := hB b' hmd'
          have hfb : (b'.play m', m') ∈ b'.future_boards :=
            mem_future_boards.mpr ⟨m', hmv', rfl⟩
          have hnb : (b'.play m', m') ∈ nb := hsubset (b', mm) hmm _ hfb
          refine ⟨m', ?_⟩
          rw [heq']
          exact hnb
        · intro b j hj hmd
          rcases Nat.eq_or_lt_of_le hj with rfl | hlt
          · obtain ⟨m, hm⟩ := hB b hmd
            exact hnowon (b, m) hm
          · exact hinv.no_won_yet b j (by omega) hmd
      exact ih hinv' h

/-- The invariant holds on entry to the loop when the start board is not
already marked won. -/
theorem searchInv_init {start : Board} (hs : start.is_won = false) :
    SearchInv start [(start, none)] start.future_boards 0 := by
  constructor
  · intro b
    constructor
    · intro hk
      have hb : b = start := by simpa [keysOf] using hk
      subst hb
      exact ⟨0, le_refl _, minDist_zero_iff.mpr rfl⟩
    · rintro ⟨j, hj, hmd⟩
      have hj0 : j = 0 := by omega
      subst hj0
      have hb := minDist_zero_iff.mp hmd
      subst hb
      simp [keysOf]
  · intro bm hbm
    obtain ⟨m, hmv, heq⟩ := mem_future_boards.mp hbm
    subst heq
    exact ⟨start, minDist_zero_iff.mpr rfl, hmv, rfl⟩
  · intro b hmd
    obtain ⟨b', m, hmd', hmv, heq⟩ := minDist_succ_pred hmd
    have hb' : b' = start := minDist_zero_iff.mp hmd'
    subst hb'
    refine ⟨m, ?_⟩
    rw [heq]
    exact mem_future_boards.mpr ⟨m, hmv, rfl⟩
  · intro b j hj hmd
    have hj0 : j = 0 := by omega
    subst hj0
    have hb := minDist_zero_iff.mp hmd
    subst hb
    exact hs

/-!
## The claims
-/

/-- C1 (amended): whenever `solve` returns a pair `(w, n)` on an initial
board whose own `is_won` flag is false, the board `w` is won and `n` is the
least number of discrete slides — each slide of any distance counting as one
ply — in any `all_moves`-legal sequence from the initial board to a board
whose `is_won` flag is true.  (The amendment restricts to a not-yet-won
start: `C1_counterexample` shows the unrestricted claim fails.) -/
theorem C1_solve_ply_is_minimal (start : Board) (fuel : Nat) (w : Board) (n : Nat)
    (hs : start.is_won = false) (h : solve start fuel = some (w, n)) :
    w.is_won = true ∧ IsLeast {k | ∃ B, ReachN start B k ∧ B.is_won = true} n := by
  rw [solve] at h
  obtain ⟨hw, hr, hmin⟩ := solveLoop_minDist fuel (searchInv_init hs) h
  refine ⟨hw, ⟨w, hr, hw⟩, ?_⟩
  rintro j ⟨B, hB, hBw⟩
  exact hmin j B hB hBw

/-- C1 counterexample: on `alreadyWonMovable` — a board already in the
winning configuration that still has legal moves — `solve` returns ply count
1, yet a won board (the start itself) is reached by the empty sequence of
slides, so 1 is not the minimum and the claim fails as stated. -/
theorem C1_counterexample :
    solve alreadyWonMovable 2 = some (alreadyWonMovableReturned, 1) ∧
      ¬ IsLeast {k | ∃ B, ReachN alreadyWonMovable B k ∧ B.is_won = true} 1 := by
  refine ⟨by decide, fun hL => ?_⟩
  have h0 : (0 : Nat) ∈ {k | ∃ B, ReachN alreadyWonMovable B k ∧ B.is_won = true} :=
    ⟨alreadyWonMovable, ReachN.refl, by decide⟩
  exact absurd (hL.2 h0) (by omega)

/-- C1 witness: on `scenario1` (not initially won) `solve` with fuel 3
returns `(scenario1Won, 1)`, and 1 is indeed the least winning ply count. -/
theorem C1_witness :
    scenario1Won.is_won = true ∧
      IsLeast {k | ∃ B, ReachN scenario1 B k ∧ B.is_won = true} 1 :=
  C1_solve_ply_is_minimal scenario1 3 scenario1Won 1 (by decide) (by decide)

/-- C2: for every well-formed board — every piece of positive size, pieces
pairwise non-overlapping, the specification's stated precondition on inputs —
and every move `all_moves` generates on it, playing the move and then undoing
it restores the original board. -/
theorem C2_play_undo_inverse (wd ht : Nat) (g : Tile) (ps : List Piece) (m : Move)
    (hsz : ∀ p ∈ ps, 1 ≤ p.size)
    (hdisj : ps.Pairwise fun p q => ∀ t, t ∈ p.occupies → ¬ t ∈ q.occupies)
    (hm : m ∈ (Board.new wd ht g ps).all_moves) :
    ((Board.new wd ht g ps).play m).undo m = Board.new wd ht g ps :=
  play_undo_of_mem hsz hdisj hm

/-- C2 witness: the roundtrip at a concrete board and generated move. -/
theorem C2_witness :
    (scenario1.play (Move.Right (0, 0) 1)).undo (Move.Right (0, 0) 1) = scenario1 :=
  C2_play_undo_inverse 3 1 (2, 0) [Piece.marked' (0, 0) 1 Direction.Horizontal]
    (Move.Right (0, 0) 1) (by decide) (by decide) (by decide)

/-- C3: per piece, along the piece's own axis and for each of its two ends,
the generator emits exactly the slides of length 1 up to the maximal
unobstructed run — every tile slid over or onto exists on the board and is
empty — never a longer one, and each shorter length as its own move; and
`all_moves` is precisely the concatenation of these per-piece moves. -/
theorem C3_all_moves_exact (b : Board) :
    b.all_moves = b.pieces.flatMap b.pieceMoves ∧
    ∀ p : Piece,
      (p.direction = Direction.Horizontal →
        (∀ i, Move.Right p.location i ∈ b.pieceMoves p ↔
          1 ≤ i ∧ ∀ j, 1 ≤ j → j ≤ i →
            b.empty_tile (p.location.1 + p.size - 1 + j, p.location.2) = true) ∧
        (∀ i, Move.Left p.location i ∈ b.pieceMoves p ↔
          1 ≤ i ∧ i ≤ p.location.1 ∧ ∀ j, 1 ≤ j → j ≤ i →
            b.empty_tile (p.location.1 - j, p.location.2) = true) ∧
        (∀ m ∈ b.pieceMoves p, ∃ i, 1 ≤ i ∧
          (m = Move.Right p.location i ∨ m = Move.Left p.location i))) ∧
      (p.direction = Direction.Vertical →
        (∀ i, Move.Up p.location i ∈ b.pieceMoves p ↔
          1 ≤ i ∧ i ≤ p.location.2 ∧ ∀ j, 1 ≤ j → j ≤ i →
            b.empty_tile (p.location.1, p.location.2 - j) = true) ∧
        (∀ i, Move.Down p.location i ∈ b.pieceMoves p ↔
          1 ≤ i ∧ ∀ j, 1 ≤ j → j ≤ i →
            b.empty_tile (p.location.1, p.location.2 + p.size - 1 + j) = true) ∧
        (∀ m ∈ b.pieceMoves p, ∃ i, 1 ≤ i ∧
          (m = Move.Up p.location i ∨ m = Move.Down p.location i))) :=
  ⟨rfl, fun _ =>
    ⟨fun hd => ⟨fun i => pieceMoves_right_mem hd i, fun i => pieceMoves_left_mem hd i,
      fun _ hm => pieceMoves_shape_horiz hd hm⟩,
     fun hd => ⟨fun i => pieceMoves_up_mem hd i, fun i => pieceMoves_down_mem hd i,
      fun _ hm => pieceMoves_shape_vert hd hm⟩⟩⟩

/-- C4: a successful `solve` always reports a ply count of at least 1,
together with a board whose win flag is set: the loop only tests boards
discovered by expansion, never the start board's own flag, so no input —
even one already in the winning configuration — is reported as a zero-ply
solution. -/
theorem C4_no_zero_ply (start : Board) (fuel : Nat) (w : Board) (n : Nat)
    (h : solve start fuel = some (w, n)) : 1 ≤ n ∧ w.is_won = true := by
  rw [solve] at h
  have := solveLoop_won_pos fuel h
  exact ⟨by omega, this.2⟩

/-- C4 witness: the concrete solved instance has ply count 1 ≥ 1. -/
theorem C4_witness : 1 ≤ 1 ∧ scenario1Won.is_won = true :=
  C4_no_zero_ply scenario1 3 scenario1Won 1 (by decide)

/-- C5: with an empty frontier the loop never returns — for every remaining
fuel, table and counter the result is `none` — and in particular on the 2×1
board whose marked size-2 piece already fills the row (it generates no move
at all), `solve` diverges: it returns `none` at every fuel. -/
theorem C5_empty_frontier_diverges :
    (∀ (v : List (Board × Option Move)) (k fuel : Nat), solveLoop v [] k fuel = none) ∧
    (∀ fuel : Nat, solve stuck2x1 fuel = none) := by
  have hloop : ∀ (fuel k : Nat) (v : List (Board × Option Move)),
      solveLoop v [] k fuel = none := by
    intro fuel
    induction fuel with
    | zero => intro k v; rfl
    | succ fuel ih =>
      intro k v
      exact ih (k + 1) v
  refine ⟨fun v k fuel => hloop fuel k v, fun fuel => ?_⟩
  rw [solve]
  rw [show stuck2x1.future_boards = [] from rfl]
  exact hloop fuel 0 _

/-- C6: for every board the constructor builds — hence also every board
`play` or `undo` builds, since both rebuild through the constructor — the
`is_won` field is true iff some marked piece has a footprint tile equal to
the board's goal. -/
theorem C6_is_won_iff :
    (∀ (wd ht : Nat) (g : Tile) (ps : List Piece),
      ((Board.new wd ht g ps).is_won = true ↔
        ∃ p ∈ (Board.new wd ht g ps).pieces, p.marked = true ∧
          (Board.new wd ht g ps).goal ∈ p.occupies)) ∧
    (∀ (b : Board) (mov : Move),
      ((b.play mov).is_won = true ↔
        ∃ p ∈ (b.play mov).pieces, p.marked = true ∧ (b.play mov).goal ∈ p.occupies)) ∧
    (∀ (b : Board) (mov : Move),
      ((b.undo mov).is_won = true ↔
        ∃ p ∈ (b.undo mov).pieces, p.marked = true ∧ (b.undo mov).goal ∈ p.occupies)) := by
  have core : ∀ (wd ht : Nat) (g : Tile) (ps : List Piece),
      ((Board.new wd ht g ps).is_won = true ↔
        ∃ p ∈ (Board.new wd ht g ps).pieces, p.marked = true ∧
          (Board.new wd ht g ps).goal ∈ p.occupies) := by
    intro wd ht g ps
    show (ps.any fun p => p.marked && p.occupies.contains g) = true ↔
      ∃ p ∈ ps, p.marked = true ∧ g ∈ p.occupies
    simp [List.any_eq_true, List.elem_iff]
  refine ⟨core, fun b mov => ?_, fun b mov => ?_⟩
  · simp only [Board.play]
    exact core _ _ _ _
  · simp only [Board.undo, Board.play]
    exact core _ _ _ _

/-- C7: a constructed board's `occupied_tiles` field is exactly the union of
its pieces' footprints (as a membership equivalence), and it holds no
duplicate tile when the pieces are pairwise non-overlapping. -/
theorem C7_occupied_tiles :
    (∀ (wd ht : Nat) (g : Tile) (ps : List Piece) (t : Tile),
      t ∈ (Board.new wd ht g ps).occupied_tiles ↔
        ∃ p ∈ (Board.new wd ht g ps).pieces, t ∈ p.occupies) ∧
    (∀ (wd ht : Nat) (g : Tile) (ps : List Piece),
      (ps.Pairwise fun p q => ∀ t, t ∈ p.occupies → ¬ t ∈ q.occupies) →
        (Board.new wd ht g ps).occupied_tiles.Nodup) := by
  constructor
  · intro wd ht g ps t
    exact mem_occupiedTilesOf
  · intro wd ht g ps hdisj
    show (occupiedTilesOf ps).Nodup
    rw [occupiedTilesOf, List.nodup_flatMap]
    refine ⟨fun p _ => occupies_nodup p, ?_⟩
    exact hdisj.imp fun h t ht1 ht2 => h t ht1 ht2

/-- C8: `play` changes only the location of the piece(s) whose location is
the move's origin tile, shifting by the move's signed offset (Left x−s,
Right x+s, Up y−s, Down y+s); every other piece and every other field of
every piece is unchanged, the piece sequence keeps its length and relative
order, and width, height and goal are unchanged. -/
theorem C8_play_frame (b : Board) (mov : Move) :
    (b.play mov).width = b.width ∧ (b.play mov).height = b.height ∧
    (b.play mov).goal = b.goal ∧
    (b.play mov).pieces.length = b.pieces.length ∧
    ∀ (i : Nat) (h1 : i < b.pieces.length) (h2 : i < (b.play mov).pieces.length),
      ((b.play mov).pieces.get ⟨i, h2⟩).size = (b.pieces.get ⟨i, h1⟩).size ∧
      ((b.play mov).pieces.get ⟨i, h2⟩).direction = (b.pieces.get ⟨i, h1⟩).direction ∧
      ((b.play mov).pieces.get ⟨i, h2⟩).marked = (b.pieces.get ⟨i, h1⟩).marked ∧
      ((b.play mov).pieces.get ⟨i, h2⟩).location =
        (if (b.pieces.get ⟨i, h1⟩).location = mov.get_tile then
          match mov with
          | Move.Left _ steps =>
              ((b.pieces.get ⟨i, h1⟩).location.1 - steps, (b.pieces.get ⟨i, h1⟩).location.2)
          | Move.Right _ steps =>
              ((b.pieces.get ⟨i, h1⟩).location.1 + steps, (b.pieces.get ⟨i, h1⟩).location.2)
          | Move.Up _ steps =>
              ((b.pieces.get ⟨i, h1⟩).location.1, (b.pieces.get ⟨i, h1⟩).location.2 - steps)
          | Move.Down _ steps =>
              ((b.pieces.get ⟨i, h1⟩).location.1, (b.pieces.get ⟨i, h1⟩).location.2 + steps)
        else (b.pieces.get ⟨i, h1⟩).location) := by
  refine ⟨rfl, rfl, rfl, by simp [Board.play], ?_⟩
  intro i h1 h2
  have hget : (b.play mov).pieces.get ⟨i, h2⟩ =
      (if (b.pieces.get ⟨i, h1⟩).location = mov.get_tile then
        match mov with
        | Move.Left _ steps =>
            { b.pieces.get ⟨i, h1⟩ with
              location := ((b.pieces.get ⟨i, h1⟩).location.1 - steps,
                (b.pieces.get ⟨i, h1⟩).location.2) }
        | Move.Right _ steps =>
            { b.pieces.get ⟨i, h1⟩ with
              location := ((b.pieces.get ⟨i, h1⟩).location.1 + steps,
                (b.pieces.get ⟨i, h1⟩).location.2) }
        | Move.Up _ steps =>
            { b.pieces.get ⟨i, h1⟩ with
              location := ((b.pieces.get ⟨i, h1⟩).location.1,
                (b.pieces.get ⟨i, h1⟩).location.2 - steps) }
        | Move.Down _ steps =>
            { b.pieces.get ⟨i, h1⟩ with
              location := ((b.pieces.get ⟨i, h1⟩).location.1,
                (b.pieces.get ⟨i, h1⟩).location.2 + steps) }
      else b.pieces.get ⟨i, h1⟩) := by
    cases mov <;> simp [Board.play]
  rw [hget]
  by_cases hc : (b.pieces.get ⟨i, h1⟩).location = mov.get_tile
  · rw [if_pos hc, if_pos hc]
    cases mov <;> simp
  · rw [if_neg hc, if_neg hc]
    exact ⟨rfl, rfl, rfl, rfl⟩

/-- C9: on a board whose pieces all have positive size, every generated move
keeps the arithmetic of `play` and `undo` within the unsigned range: a Left
(resp. Up) step count never exceeds the origin's x (resp. y) coordinate — the
`start < i` probe guard — so no subtraction underflows, and a Right (resp.
Down) slide lands strictly inside the grid width (resp. height), so no sum
exceeds the board dimension and all operations are total. -/
theorem C9_moves_arith_safe (wd ht : Nat) (g : Tile) (ps : List Piece)
    (hsz : ∀ p ∈ ps, 1 ≤ p.size) (m : Move)
    (hm : m ∈ (Board.new wd ht g ps).all_moves) :
    match m with
    | Move.Left t s => s ≤ t.1
    | Move.Right t s => t.1 + s < wd
    | Move.Up t s => s ≤ t.2
    | Move.Down t s => t.2 + s < ht := by
  obtain ⟨p, hp, hmp⟩ := mem_all_moves.mp hm
  have hps := hsz p hp
  rcases hd : p.direction with _ | _
  · obtain ⟨i, hi, hs⟩ := pieceMoves_shape_horiz hd hmp
    rcases hs with rfl | rfl
    · obtain ⟨-, hpref⟩ := (pieceMoves_right_mem hd i).mp hmp
      have hlt : p.location.1 + p.size - 1 + i < wd := by
        have := (empty_tile_lt (hpref i hi (le_refl _))).1
        simpa using this
      show p.location.1 + i < wd
      omega
    · obtain ⟨-, hix, -⟩ := (pieceMoves_left_mem hd i).mp hmp
      exact hix
  · obtain ⟨i, hi, hs⟩ := pieceMoves_shape_vert hd hmp
    rcases hs with rfl | rfl
    · obtain ⟨-, hiy, -⟩ := (pieceMoves_up_mem hd i).mp hmp
      exact hiy
    · obtain ⟨-, hpref⟩ := (pieceMoves_down_mem hd i).mp hmp
      have hlt : p.location.2 + p.size - 1 + i < ht := by
        have := (empty_tile_lt (hpref i hi (le_refl _))).2
        simpa using this
      show p.location.2 + i < ht
      omega

/-- C9 witness: the Right-by-1 move generated on the concrete board keeps
its landing coordinate inside the width. -/
theorem C9_witness : (0 : Nat) + 1 < 3 :=
  C9_moves_arith_safe 3 1 (2, 0) [Piece.marked' (0, 0) 1 Direction.Horizontal]
    (by decide) (Move.Right (0, 0) 1) (by decide)

/-- C10: a move whose origin tile equals no piece's location leaves the
board exactly as it was — `play` silently produces an equal board rather
than failing. -/
theorem C10_play_no_match (wd ht : Nat) (g : Tile) (ps : List Piece) (mov : Move)
    (hno : ∀ p ∈ ps, p.location ≠ mov.get_tile) :
    (Board.new wd ht g ps).play mov = Board.new wd ht g ps := by
  simp only [Board.play, Board.new_width, Board.new_height, Board.new_goal,
    Board.new_pieces]
  refine congrArg (Board.new wd ht g) ?_
  conv_rhs => rw [← List.map_id ps]
  refine List.map_congr_left fun p hp => ?_
  rw [if_neg (hno p hp)]
  rfl

/-- C10 witness: a move from an unoccupied origin tile is a no-op on the
concrete board. -/
theorem C10_witness : scenario1.play (Move.Right (1, 0) 1) = scenario1 :=
  C10_play_no_match 3 1 (2, 0) [Piece.marked' (0, 0) 1 Direction.Horizontal]
    (Move.Right (1, 0) 1) (by decide)
